import Mathlib

/-!
Verification of the GTK symbol-version checker (`GtkSymbolCheck.py`).

The development shallowly embeds the core of the program:
* `GtkSymbol` with `check_version` (three-way version classification),
* the symbol-database construction `get_symbols` (an ascending
  introduction pass over the known version series followed by a
  descending deprecation pass),
* the compliance check `check_available_symbol`.

Versions are pairs of integers `(major, minor)`.  The Python dict of
symbols is embedded as an association list in insertion order;
`dictFind` mirrors dict lookup, `insertAvailable` the introduction
pass over one availability listing, `applyDeprecated` the deprecation
pass over one deprecation listing.  Printing is modelled by returning
the list of emitted `Report`s.
-/

abbrev Version := Int × Int

/-- Strict lexicographic order on versions. -/
def versionLt (x y : Version) : Prop :=
  x.1 < y.1 ∨ (x.1 = y.1 ∧ x.2 < y.2)

/-- Lexicographic order on versions (reflexive). -/
def versionLe (x y : Version) : Prop :=
  x.1 < y.1 ∨ (x.1 = y.1 ∧ x.2 ≤ y.2)

instance (x y : Version) : Decidable (versionLt x y) := by
  unfold versionLt; infer_instance

instance (x y : Version) : Decidable (versionLe x y) := by
  unfold versionLe; infer_instance

/-- Module-level default `gtk_major_version = 3` from the source. -/
def gtk_major_version : Int := 3

/-- Module-level default `gtk_minor_version = 12` from the source. -/
def gtk_minor_version : Int := 12

/-- `GtkSymbol`: name together with minimum and maximum GTK versions. -/
structure GtkSymbol where
  symbol_name : String
  minimum_gtk_version : Version
  maximum_gtk_version : Version
deriving DecidableEq, Repr

/-- `GtkSymbol.check_version`: `-1` if the symbol is too new for the
requested version, `1` if deprecated ("too old"), `0` if valid.  The
first test compares `(major, minor)` lexicographically against the
minimum; the second compares major and minor against the maximum
independently, exactly as the Python source does. -/
def check_version (s : GtkSymbol) (major_version minor_version : Int) : Int :=
  if s.minimum_gtk_version.1 > major_version ∨
      (s.minimum_gtk_version.1 = major_version ∧
        s.minimum_gtk_version.2 > minor_version) then
    -1
  else if s.maximum_gtk_version.1 < major_version ∨
      s.maximum_gtk_version.2 < minor_version then
    1
  else
    0

/-- The symbol database: Python dict embedded as an association list in
insertion order. -/
abbrev SymbolDict := List (String × GtkSymbol)

/-- Dict lookup: first binding of the key, if any. -/
def dictFind (d : SymbolDict) (k : String) : Option GtkSymbol :=
  match d with
  | [] => none
  | (k', v) :: rest => if k' = k then some v else dictFind rest k

/-- The known ascending series of GTK minor versions 3.0 … 3.12. -/
def known_minors : List Int := [0, 2, 4, 6, 8, 10, 12]

/-- Introduction pass over one availability listing at minor version
`m`: each symbol not yet present is inserted with range
`((3, m), (3, 12))`; symbols already present are left untouched. -/
def insertAvailable (m : Int) (names : List String) (syms : SymbolDict) :
    SymbolDict :=
  match names with
  | [] => syms
  | n :: rest =>
    if (dictFind syms n).isSome then
      insertAvailable m rest syms
    else
      insertAvailable m rest (syms ++ [(n, ⟨n, (3, m), (3, 12)⟩)])

/-- Overwrite the maximum version of the entry for `n` (Python
`symbols[symbol].maximum_gtk_version = v`). -/
def setMax (syms : SymbolDict) (n : String) (v : Version) : SymbolDict :=
  syms.map (fun p =>
    if p.1 = n then (p.1, { p.2 with maximum_gtk_version := v }) else p)

/-- Deprecation pass over one deprecation listing at minor version `m`:
present symbols get their maximum set to `(3, m)`; absent symbols are
inserted with range `((gtk_major_version, 0), (3, m))`. -/
def applyDeprecated (m : Int) (names : List String) (syms : SymbolDict) :
    SymbolDict :=
  match names with
  | [] => syms
  | n :: rest =>
    if (dictFind syms n).isSome then
      applyDeprecated m rest (setMax syms n (3, m))
    else
      applyDeprecated m rest (syms ++ [(n, ⟨n, (gtk_major_version, 0), (3, m)⟩)])

/-- Fold of the introduction pass over a list of minor versions. -/
def foldAvail (a : Int → List String) (ms : List Int) (syms : SymbolDict) :
    SymbolDict :=
  ms.foldl (fun sy m => insertAvailable m (a m) sy) syms

/-- Fold of the deprecation pass over a list of minor versions. -/
def foldDep (d : Int → List String) (ms : List Int) (syms : SymbolDict) :
    SymbolDict :=
  ms.foldl (fun sy m => applyDeprecated m (d m) sy) syms

/-- `GtkSymbolListing.get_symbols`: introduction pass oldest→newest over
the known series, then deprecation pass newest→oldest. -/
def get_symbols (a d : Int → List String) : SymbolDict :=
  foldDep d known_minors.reverse (foldAvail a known_minors [])

/-- Classification outcome of a compliance query. -/
inductive Classification where
  | Valid
  | TooNew
  | Deprecated
  | Unknown
deriving DecidableEq, Repr

/-- The classification performed by `check_available_symbol`: `Unknown`
when the symbol is absent (the `KeyError` path), otherwise the outcome
of `check_version`. -/
def classify_symbol (syms : SymbolDict) (name : String)
    (major_version minor_version : Int) : Classification :=
  match dictFind syms name with
  | none => Classification.Unknown
  | some s =>
    if check_version s major_version minor_version = -1 then
      Classification.TooNew
    else if check_version s major_version minor_version = 1 then
      Classification.Deprecated
    else
      Classification.Valid

/-- One line printed by `check_available_symbol`. -/
inductive Report where
  | introducedIn : String → Version → Report
  | deprecatedSince : String → Version → Report
  | notFound : String → Report
deriving DecidableEq, Repr

/-- `GtkSymbolListing.check_available_symbol`: returns the boolean
result together with the printed report lines.  A missing symbol raises
`KeyError`, caught by the `except` branch, which prints the not-found
line unless `hide_not_found` is set and returns `False`. -/
def check_available_symbol (symbols : SymbolDict) (hide_not_found : Bool)
    (symbol_name : String) (major_version minor_version : Int) :
    Bool × List Report :=
  match dictFind symbols symbol_name with
  | some symbol =>
    if check_version symbol major_version minor_version = -1 then
      (false, [Report.introducedIn symbol_name symbol.minimum_gtk_version])
    else if check_version symbol major_version minor_version = 1 then
      (false, [Report.deprecatedSince symbol_name symbol.maximum_gtk_version])
    else
      (true, [])
  | none =>
    if hide_not_found then
      (false, [])
    else
      (false, [Report.notFound symbol_name])

/-- First minor version in `ms` whose listing contains `s`. -/
def firstHit (a : Int → List String) (s : String) : List Int → Option Int
  | [] => none
  | m :: ms => if s ∈ a m then some m else firstHit a s ms

/-- Minor version in `ms` whose listing contains `s` that is processed
last by a left fold over `ms`. -/
def lastHit (d : Int → List String) (s : String) : List Int → Option Int
  | [] => none
  | m :: ms =>
    match lastHit d s ms with
    | some x => some x
    | none => if s ∈ d m then some m else none

theorem dictFind_append_single (d : SymbolDict) (k : String) (v : GtkSymbol)
    (s : String) :
    dictFind (d ++ [(k, v)]) s =
      match dictFind d s with
      | some r => some r
      | none => if k = s then some v else none := by
  induction d with
  | nil => simp [dictFind]
  | cons p rest ih =>
    by_cases h : p.1 = s <;> simp [dictFind, h, ih]

theorem dictFind_setMax (d : SymbolDict) (n : String) (v : Version)
    (s : String) :
    dictFind (setMax d n v) s =
      if s = n then
        (dictFind d s).map (fun r => { r with maximum_gtk_version := v })
      else dictFind d s := by
  induction d with
  | nil => by_cases h : s = n <;> simp [dictFind, setMax, h]
  | cons p rest ih =>
    obtain ⟨k, r⟩ := p
    have hstep : setMax ((k, r) :: rest) n v =
        (if k = n then (k, { r with maximum_gtk_version := v }) else (k, r)) ::
          setMax rest n v := by
      simp [setMax]
    rw [hstep]
    by_cases hkn : k = n
    · rw [if_pos hkn]
      by_cases hks : k = s
      · subst hks
        simp [dictFind, hkn]
      · simp [dictFind, hks, ih]
    · rw [if_neg hkn]
      by_cases hks : k = s
      · subst hks
        simp [dictFind, hkn]
      · simp [dictFind, hks, ih]

theorem insertAvailable_some (m : Int) (names : List String)
    (syms : SymbolDict) (s : String) (r : GtkSymbol)
    (h : dictFind syms s = some r) :
    dictFind (insertAvailable m names syms) s = some r := by
  induction names generalizing syms with
  | nil => simpa [insertAvailable] using h
  | cons n rest ih =>
    unfold insertAvailable
    split
    · exact ih syms h
    · apply ih
      rw [dictFind_append_single, h]

theorem insertAvailable_none_mem (m : Int) (names : List String)
    (syms : SymbolDict) (s : String)
    (h : dictFind syms s = none) (hs : s ∈ names) :
    dictFind (insertAvailable m names syms) s = some ⟨s, (3, m), (3, 12)⟩ := by
  induction names generalizing syms with
  | nil => cases hs
  | cons n rest ih =>
    unfold insertAvailable
    rcases List.mem_cons.mp hs with rfl | hrest
    · rw [if_neg (by simp [h])]
      apply insertAvailable_some
      rw [dictFind_append_single, h]
      simp
    · by_cases hns : n = s
      · subst hns
        rw [if_neg (by simp [h])]
        apply insertAvailable_some
        rw [dictFind_append_single, h]
        simp
      · by_cases hsome : (dictFind syms n).isSome
        · rw [if_pos hsome]
          exact ih syms h hrest
        · rw [if_neg hsome]
          apply ih _ _ hrest
          rw [dictFind_append_single, h]
          simp [hns]

theorem insertAvailable_none_notmem (m : Int) (names : List String)
    (syms : SymbolDict) (s : String)
    (h : dictFind syms s = none) (hs : s ∉ names) :
    dictFind (insertAvailable m names syms) s = none := by
  induction names generalizing syms with
  | nil => simpa [insertAvailable] using h
  | cons n rest ih =>
    have hns : n ≠ s := fun e => hs (e ▸ List.mem_cons_self n rest)
    have hrest : s ∉ rest := fun e => hs (List.mem_cons_of_mem n e)
    unfold insertAvailable
    split
    · exact ih syms h hrest
    · apply ih _ _ hrest
      rw [dictFind_append_single, h]
      simp [hns]

theorem applyDeprecated_some_notmem (m : Int) (names : List String)
    (syms : SymbolDict) (s : String) (r : GtkSymbol)
    (h : dictFind syms s = some r) (hs : s ∉ names) :
    dictFind (applyDeprecated m names syms) s = some r := by
  induction names generalizing syms with
  | nil => simpa [applyDeprecated] using h
  | cons n rest ih =>
    have hns : n ≠ s := fun e => hs (e ▸ List.mem_cons_self n rest)
    have hrest : s ∉ rest := fun e => hs (List.mem_cons_of_mem n e)
    have hsn : ¬ s = n := fun e => hns e.symm
    unfold applyDeprecated
    split
    · apply ih _ _ hrest
      rw [dictFind_setMax]
      simp [hsn, h]
    · apply ih _ _ hrest
      rw [dictFind_append_single, h]

theorem applyDeprecated_some_mem (m : Int) (names : List String)
    (syms : SymbolDict) (s : String) (r : GtkSymbol)
    (h : dictFind syms s = some r) (hs : s ∈ names) :
    dictFind (applyDeprecated m names syms) s =
      some { r with maximum_gtk_version := (3, m) } := by
  induction names generalizing syms r with
  | nil => cases hs
  | cons n rest ih =>
    unfold applyDeprecated
    rcases List.mem_cons.mp hs with rfl | hrest
    · rw [if_pos (by simp [h])]
      have hset : dictFind (setMax syms s (3, m)) s =
          some { r with maximum_gtk_version := (3, m) } := by
        rw [dictFind_setMax]; simp [h]
      by_cases hsr : s ∈ rest
      · have := ih (setMax syms s (3, m)) _ hset hsr
        simpa using this
      · exact applyDeprecated_some_notmem m rest _ s _ hset hsr
    · by_cases hsome : (dictFind syms n).isSome
      · rw [if_pos hsome]
        by_cases hsn : s = n
        · subst hsn
          have hset : dictFind (setMax syms s (3, m)) s =
              some { r with maximum_gtk_version := (3, m) } := by
            rw [dictFind_setMax]; simp [h]
          have := ih _ _ hset hrest
          simpa using this
        · have hset : dictFind (setMax syms n (3, m)) s = some r := by
            rw [dictFind_setMax]; simp [hsn, h]
          exact ih _ _ hset hrest
      · rw [if_neg hsome]
        apply ih _ r _ hrest
        rw [dictFind_append_single, h]

theorem applyDeprecated_none_notmem (m : Int) (names : List String)
    (syms : SymbolDict) (s : String)
    (h : dictFind syms s = none) (hs : s ∉ names) :
    dictFind (applyDeprecated m names syms) s = none := by
  induction names generalizing syms with
  | nil => simpa [applyDeprecated] using h
  | cons n rest ih =>
    have hns : n ≠ s := fun e => hs (e ▸ List.mem_cons_self n rest)
    have hrest : s ∉ rest := fun e => hs (List.mem_cons_of_mem n e)
    have hsn : ¬ s = n := fun e => hns e.symm
    unfold applyDeprecated
    by_cases hsome : (dictFind syms n).isSome
    · rw [if_pos hsome]
      apply ih _ _ hrest
      rw [dictFind_setMax]
      simp [hsn, h]
    · rw [if_neg hsome]
      apply ih _ _ hrest
      rw [dictFind_append_single, h]
      simp [hns]

theorem applyDeprecated_none_mem (m : Int) (names : List String)
    (syms : SymbolDict) (s : String)
    (h : dictFind syms s = none) (hs : s ∈ names) :
    dictFind (applyDeprecated m names syms) s =
      some ⟨s, (gtk_major_version, 0), (3, m)⟩ := by
  induction names generalizing syms with
  | nil => cases hs
  | cons n rest ih =>
    unfold applyDeprecated
    rcases List.mem_cons.mp hs with rfl | hrest
    · rw [if_neg (by simp [h])]
      have hins : dictFind (syms ++ [(s, ⟨s, (gtk_major_version, 0), (3, m)⟩)]) s =
          some ⟨s, (gtk_major_version, 0), (3, m)⟩ := by
        rw [dictFind_append_single, h]
        simp
      by_cases hsr : s ∈ rest
      · have := applyDeprecated_some_mem m rest _ s _ hins hsr
        simpa using this
      · exact applyDeprecated_some_notmem m rest _ s _ hins hsr
    · by_cases hsn : s = n
      · subst hsn
        rw [if_neg (by simp [h])]
        have hins : dictFind (syms ++ [(s, ⟨s, (gtk_major_version, 0), (3, m)⟩)]) s =
            some ⟨s, (gtk_major_version, 0), (3, m)⟩ := by
          rw [dictFind_append_single, h]
          simp
        have := applyDeprecated_some_mem m rest _ s _ hins hrest
        simpa using this
      · by_cases hsome : (dictFind syms n).isSome
        · rw [if_pos hsome]
          apply ih _ _ hrest
          rw [dictFind_setMax]
          simp [hsn, h]
        · rw [if_neg hsome]
          apply ih _ _ hrest
          rw [dictFind_append_single, h]
          have hns : ¬ n = s := fun e => hsn e.symm
          simp [hns]

theorem foldAvail_some (a : Int → List String) (ms : List Int)
    (syms : SymbolDict) (s : String) (r : GtkSymbol)
    (h : dictFind syms s = some r) :
    dictFind (foldAvail a ms syms) s = some r := by
  induction ms generalizing syms with
  | nil => simpa [foldAvail] using h
  | cons m rest ih =>
    have : foldAvail a (m :: rest) syms =
        foldAvail a rest (insertAvailable m (a m) syms) := rfl
    rw [this]
    exact ih _ (insertAvailable_some m (a m) syms s r h)

theorem foldAvail_none (a : Int → List String) (ms : List Int)
    (syms : SymbolDict) (s : String)
    (h : dictFind syms s = none) :
    dictFind (foldAvail a ms syms) s =
      match firstHit a s ms with
      | none => none
      | some m => some ⟨s, (3, m), (3, 12)⟩ := by
  induction ms generalizing syms with
  | nil => simpa [foldAvail, firstHit] using h
  | cons m rest ih =>
    have hstep : foldAvail a (m :: rest) syms =
        foldAvail a rest (insertAvailable m (a m) syms) := rfl
    rw [hstep]
    by_cases hm : s ∈ a m
    · rw [firstHit, if_pos hm]
      exact foldAvail_some a rest _ s _ (insertAvailable_none_mem m (a m) syms s h hm)
    · rw [firstHit, if_neg hm]
      exact ih _ (insertAvailable_none_notmem m (a m) syms s h hm)

theorem foldDep_some (d : Int → List String) (ms : List Int)
    (syms : SymbolDict) (s : String) (r : GtkSymbol)
    (h : dictFind syms s = some r) :
    dictFind (foldDep d ms syms) s =
      some { r with maximum_gtk_version :=
        match lastHit d s ms with
        | none => r.maximum_gtk_version
        | some m => (3, m) } := by
  induction ms generalizing syms r with
  | nil => simpa [foldDep, lastHit] using h
  | cons m rest ih =>
    have hstep : foldDep d (m :: rest) syms =
        foldDep d rest (applyDeprecated m (d m) syms) := rfl
    rw [hstep, lastHit]
    by_cases hm : s ∈ d m
    · have h₁ := applyDeprecated_some_mem m (d m) syms s r h hm
      have := ih _ _ h₁
      rw [this]
      cases hl : lastHit d s rest <;> simp [hl, hm]
    · have h₁ := applyDeprecated_some_notmem m (d m) syms s r h hm
      have := ih _ _ h₁
      rw [this]
      cases hl : lastHit d s rest <;> simp [hl, hm]

theorem foldDep_none (d : Int → List String) (ms : List Int)
    (syms : SymbolDict) (s : String)
    (h : dictFind syms s = none) :
    dictFind (foldDep d ms syms) s =
      match lastHit d s ms with
      | none => none
      | some m => some ⟨s, (gtk_major_version, 0), (3, m)⟩ := by
  induction ms generalizing syms with
  | nil => simpa [foldDep, lastHit] using h
  | cons m rest ih =>
    have hstep : foldDep d (m :: rest) syms =
        foldDep d rest (applyDeprecated m (d m) syms) := rfl
    rw [hstep, lastHit]
    by_cases hm : s ∈ d m
    · have h₁ := applyDeprecated_none_mem m (d m) syms s h hm
      have := foldDep_some d rest _ s _ h₁
      rw [this]
      cases hl : lastHit d s rest <;> simp [hl, hm]
    · have h₁ := applyDeprecated_none_notmem m (d m) syms s h hm
      have := ih _ h₁
      rw [this]
      cases hl : lastHit d s rest <;> simp [hl, hm]

/-- The keys of the database, in insertion order. -/
def dictKeys (d : SymbolDict) : List String := d.map Prod.fst

theorem dictFind_eq_none_iff (d : SymbolDict) (s : String) :
    dictFind d s = none ↔ s ∉ dictKeys d := by
  induction d with
  | nil => simp [dictFind, dictKeys]
  | cons p rest ih =>
    obtain ⟨k, r⟩ := p
    by_cases hk : k = s
    · subst hk
      simp [dictFind, dictKeys]
    · have hsk : ¬ s = k := fun e => hk e.symm
      simp [dictFind, dictKeys, hk, hsk, ih]

theorem dictKeys_append_single (d : SymbolDict) (n : String) (r : GtkSymbol) :
    dictKeys (d ++ [(n, r)]) = dictKeys d ++ [n] := by
  simp [dictKeys]

theorem dictKeys_setMax (d : SymbolDict) (n : String) (v : Version) :
    dictKeys (setMax d n v) = dictKeys d := by
  induction d with
  | nil => rfl
  | cons p rest ih =>
    obtain ⟨k, r⟩ := p
    by_cases hk : k = n <;> simp [setMax, dictKeys, hk] at ih ⊢ <;> exact ih

theorem dictKeys_append_nodup (d : SymbolDict) (n : String) (r : GtkSymbol)
    (h : (dictKeys d).Nodup) (hn : dictFind d n = none) :
    (dictKeys (d ++ [(n, r)])).Nodup := by
  rw [dictKeys_append_single, List.nodup_append]
  refine ⟨h, List.nodup_singleton n, ?_⟩
  intro x hx hx'
  rw [List.mem_singleton] at hx'
  subst hx'
  exact (dictFind_eq_none_iff d x).mp hn hx

theorem insertAvailable_nodup (m : Int) (names : List String)
    (syms : SymbolDict) (h : (dictKeys syms).Nodup) :
    (dictKeys (insertAvailable m names syms)).Nodup := by
  induction names generalizing syms with
  | nil => simpa [insertAvailable] using h
  | cons n rest ih =>
    unfold insertAvailable
    by_cases hsome : (dictFind syms n).isSome
    · rw [if_pos hsome]
      exact ih _ h
    · rw [if_neg hsome]
      apply ih
      apply dictKeys_append_nodup _ _ _ h
      cases hv : dictFind syms n
      · rfl
      · rw [hv] at hsome
        simp at hsome

theorem applyDeprecated_nodup (m : Int) (names : List String)
    (syms : SymbolDict) (h : (dictKeys syms).Nodup) :
    (dictKeys (applyDeprecated m names syms)).Nodup := by
  induction names generalizing syms with
  | nil => simpa [applyDeprecated] using h
  | cons n rest ih =>
    unfold applyDeprecated
    by_cases hsome : (dictFind syms n).isSome
    · rw [if_pos hsome]
      apply ih
      rw [dictKeys_setMax]
      exact h
    · rw [if_neg hsome]
      apply ih
      apply dictKeys_append_nodup _ _ _ h
      cases hv : dictFind syms n
      · rfl
      · rw [hv] at hsome
        simp at hsome

theorem foldAvail_nodup (a : Int → List String) (ms : List Int)
    (syms : SymbolDict) (h : (dictKeys syms).Nodup) :
    (dictKeys (foldAvail a ms syms)).Nodup := by
  induction ms generalizing syms with
  | nil => simpa [foldAvail] using h
  | cons m rest ih =>
    have hstep : foldAvail a (m :: rest) syms =
        foldAvail a rest (insertAvailable m (a m) syms) := rfl
    rw [hstep]
    exact ih _ (insertAvailable_nodup m (a m) syms h)

theorem foldDep_nodup (d : Int → List String) (ms : List Int)
    (syms : SymbolDict) (h : (dictKeys syms).Nodup) :
    (dictKeys (foldDep d ms syms)).Nodup := by
  induction ms generalizing syms with
  | nil => simpa [foldDep] using h
  | cons m rest ih =>
    have hstep : foldDep d (m :: rest) syms =
        foldDep d rest (applyDeprecated m (d m) syms) := rfl
    rw [hstep]
    exact ih _ (applyDeprecated_nodup m (d m) syms h)

/-- The finished database never holds two records for the same name. -/
theorem get_symbols_keys_nodup (a d : Int → List String) :
    (dictKeys (get_symbols a d)).Nodup := by
  unfold get_symbols
  exact foldDep_nodup d _ _ (foldAvail_nodup a _ _ (by simp [dictKeys]))

theorem dictFind_of_mem_nodup (d : SymbolDict) (k : String) (v : GtkSymbol)
    (hnd : (dictKeys d).Nodup) (hm : (k, v) ∈ d) : dictFind d k = some v := by
  induction d with
  | nil => cases hm
  | cons p rest ih =>
    obtain ⟨k', v'⟩ := p
    have hnd' : k' ∉ dictKeys rest ∧ (dictKeys rest).Nodup := by
      simpa [dictKeys] using hnd
    rcases List.mem_cons.mp hm with heq | hr
    · cases heq
      simp [dictFind]
    · by_cases hk : k' = k
      · subst hk
        exact absurd (List.mem_map_of_mem Prod.fst hr) hnd'.1
      · simp only [dictFind, if_neg hk]
        exact ih hnd'.2 hr

theorem foldAvail_congr (a a' : Int → List String) (ms : List Int)
    (syms : SymbolDict) (h : ∀ m ∈ ms, a m = a' m) :
    foldAvail a ms syms = foldAvail a' ms syms := by
  induction ms generalizing syms with
  | nil => rfl
  | cons m rest ih =>
    have hstep : foldAvail a (m :: rest) syms =
        foldAvail a rest (insertAvailable m (a m) syms) := rfl
    have hstep' : foldAvail a' (m :: rest) syms =
        foldAvail a' rest (insertAvailable m (a' m) syms) := rfl
    rw [hstep, hstep', h m (List.mem_cons_self _ _)]
    exact ih _ (fun m' hm' => h m' (List.mem_cons_of_mem _ hm'))

theorem foldDep_congr (d d' : Int → List String) (ms : List Int)
    (syms : SymbolDict) (h : ∀ m ∈ ms, d m = d' m) :
    foldDep d ms syms = foldDep d' ms syms := by
  induction ms generalizing syms with
  | nil => rfl
  | cons m rest ih =>
    have hstep : foldDep d (m :: rest) syms =
        foldDep d rest (applyDeprecated m (d m) syms) := rfl
    have hstep' : foldDep d' (m :: rest) syms =
        foldDep d' rest (applyDeprecated m (d' m) syms) := rfl
    rw [hstep, hstep', h m (List.mem_cons_self _ _)]
    exact ih _ (fun m' hm' => h m' (List.mem_cons_of_mem _ hm'))

theorem firstHit_mem_hit (a : Int → List String) (s : String) (ms : List Int)
    (m₀ : Int) (h : firstHit a s ms = some m₀) : m₀ ∈ ms ∧ s ∈ a m₀ := by
  induction ms with
  | nil => cases h
  | cons m rest ih =>
    rw [firstHit] at h
    by_cases hm : s ∈ a m
    · rw [if_pos hm] at h
      cases h
      exact ⟨List.mem_cons_self _ _, hm⟩
    · rw [if_neg hm] at h
      obtain ⟨h₁, h₂⟩ := ih h
      exact ⟨List.mem_cons_of_mem m h₁, h₂⟩

theorem firstHit_none_iff (a : Int → List String) (s : String) (ms : List Int) :
    firstHit a s ms = none ↔ ∀ m ∈ ms, s ∉ a m := by
  induction ms with
  | nil => simp [firstHit]
  | cons m rest ih =>
    rw [firstHit]
    by_cases hm : s ∈ a m
    · simp [hm]
    · simp [hm, ih]

theorem firstHit_min (a : Int → List String) (s : String) (ms : List Int)
    (hsort : ms.Pairwise (fun x y => x ≤ y)) (m₀ : Int)
    (h : firstHit a s ms = some m₀) :
    ∀ m ∈ ms, s ∈ a m → m₀ ≤ m := by
  induction ms with
  | nil => cases h
  | cons m rest ih =>
    rw [firstHit] at h
    rw [List.pairwise_cons] at hsort
    intro m' hm' hs'
    by_cases hm : s ∈ a m
    · rw [if_pos hm] at h
      cases h
      rcases List.mem_cons.mp hm' with rfl | hr
      · exact le_refl _
      · exact hsort.1 m' hr
    · rw [if_neg hm] at h
      rcases List.mem_cons.mp hm' with rfl | hr
      · exact absurd hs' hm
      · exact ih hsort.2 h m' hr hs'

theorem lastHit_mem_hit (d : Int → List String) (s : String) (ms : List Int)
    (m₀ : Int) (h : lastHit d s ms = some m₀) : m₀ ∈ ms ∧ s ∈ d m₀ := by
  induction ms with
  | nil => cases h
  | cons m rest ih =>
    rw [lastHit] at h
    cases hl : lastHit d s rest with
    | some x =>
      rw [hl] at h
      cases h
      obtain ⟨h₁, h₂⟩ := ih hl
      exact ⟨List.mem_cons_of_mem m h₁, h₂⟩
    | none =>
      rw [hl] at h
      by_cases hm : s ∈ d m
      · rw [if_pos hm] at h
        cases h
        exact ⟨List.mem_cons_self _ _, hm⟩
      · rw [if_neg hm] at h
        cases h

theorem lastHit_none_iff (d : Int → List String) (s : String) (ms : List Int) :
    lastHit d s ms = none ↔ ∀ m ∈ ms, s ∉ d m := by
  induction ms with
  | nil => simp [lastHit]
  | cons m rest ih =>
    rw [lastHit]
    cases hl : lastHit d s rest with
    | some x =>
      simp only [hl]
      constructor
      · intro h; cases h
      · intro h
        have := (ih.mpr fun m' hm' => h m' (List.mem_cons_of_mem m hm'))
        rw [hl] at this
        cases this
    | none =>
      by_cases hm : s ∈ d m
      · simp [hm]
      · simp [hm]
        exact ih.mp hl

theorem lastHit_min (d : Int → List String) (s : String) (ms : List Int)
    (hsort : ms.Pairwise (fun x y => y ≤ x)) (m₀ : Int)
    (h : lastHit d s ms = some m₀) :
    ∀ m ∈ ms, s ∈ d m → m₀ ≤ m := by
  induction ms with
  | nil => cases h
  | cons m rest ih =>
    rw [lastHit] at h
    rw [List.pairwise_cons] at hsort
    intro m' hm' hs'
    cases hl : lastHit d s rest with
    | some x =>
      rw [hl] at h
      cases h
      rcases List.mem_cons.mp hm' with rfl | hr
      · exact le_of_le_of_eq ((lastHit_mem_hit d s rest _ hl).1 |> hsort.1 _) rfl
      · exact ih hsort.2 hl m' hr hs'
    | none =>
      rw [hl] at h
      by_cases hm : s ∈ d m
      · rw [if_pos hm] at h
        cases h
        rcases List.mem_cons.mp hm' with rfl | hr
        · exact le_refl _
        · exact absurd hs' ((lastHit_none_iff d s rest).mp hl m' hr)
      · rw [if_neg hm] at h
        cases h

theorem lastHit_isSome (d : Int → List String) (s : String) (ms : List Int)
    (m : Int) (hm : m ∈ ms) (hs : s ∈ d m) : ∃ m₀, lastHit d s ms = some m₀ := by
  cases hl : lastHit d s ms with
  | some x => exact ⟨x, rfl⟩
  | none => exact absurd hs ((lastHit_none_iff d s ms).mp hl m hm)

theorem firstHit_isSome (a : Int → List String) (s : String) (ms : List Int)
    (m : Int) (hm : m ∈ ms) (hs : s ∈ a m) : ∃ m₀, firstHit a s ms = some m₀ := by
  cases hl : firstHit a s ms with
  | some x => exact ⟨x, rfl⟩
  | none => exact absurd hs ((firstHit_none_iff a s ms).mp hl m hm)

/-- Full characterization of a lookup in the finished database: the
minimum comes from the earliest availability hit of the ascending
introduction pass, the maximum from the final overwrite of the
descending deprecation pass. -/
theorem get_symbols_lookup (a d : Int → List String) (s : String) :
    dictFind (get_symbols a d) s =
      match firstHit a s known_minors, lastHit d s known_minors.reverse with
      | none, none => none
      | some ma, none => some ⟨s, (3, ma), (3, 12)⟩
      | some ma, some md => some ⟨s, (3, ma), (3, md)⟩
      | none, some md => some ⟨s, (gtk_major_version, 0), (3, md)⟩ := by
  unfold get_symbols
  have hbase : dictFind ([] : SymbolDict) s = none := rfl
  have h₁ := foldAvail_none a known_minors [] s hbase
  cases hf : firstHit a s known_minors with
  | none =>
    rw [hf] at h₁
    have h₂ := foldDep_none d known_minors.reverse _ s h₁
    rw [h₂]
    cases hl : lastHit d s known_minors.reverse <;> simp
  | some ma =>
    rw [hf] at h₁
    have h₂ := foldDep_some d known_minors.reverse _ s _ h₁
    rw [h₂]
    cases hl : lastHit d s known_minors.reverse <;> simp

theorem check_version_cases (s : GtkSymbol) (tmaj tmin : Int) :
    check_version s tmaj tmin = -1 ∨ check_version s tmaj tmin = 1 ∨
      check_version s tmaj tmin = 0 := by
  unfold check_version
  split_ifs <;> simp

/-- C2: `check_version` returns `-1` (TooNew) exactly when the queried
version is strictly below the record's minimum version in the
lexicographic order on `(major, minor)`; as a plain Lean function it is
pure, with no side effects. -/
theorem check_version_too_new_iff (s : GtkSymbol) (tmaj tmin : Int) :
    check_version s tmaj tmin = -1 ↔
      versionLt (tmaj, tmin) s.minimum_gtk_version := by
  unfold check_version versionLt
  split_ifs with h1 h2 <;> simp <;> omega

/-- C1: given a queried version not strictly below the record's minimum
version, `check_version` returns `1` (Deprecated) exactly when the
queried major exceeds the maximum major or the queried minor exceeds
the maximum minor, each compared independently; otherwise it returns
`0` (Valid). -/
theorem check_version_deprecated_iff (s : GtkSymbol) (tmaj tmin : Int)
    (h : ¬ versionLt (tmaj, tmin) s.minimum_gtk_version) :
    (check_version s tmaj tmin = 1 ↔
      (s.maximum_gtk_version.1 < tmaj ∨ s.maximum_gtk_version.2 < tmin)) ∧
    (¬ (s.maximum_gtk_version.1 < tmaj ∨ s.maximum_gtk_version.2 < tmin) →
      check_version s tmaj tmin = 0) := by
  unfold versionLt at h
  unfold check_version
  split_ifs with h1 h2
  · exact absurd (by omega) h
  · simp [h2]
  · simp_all

/-- Witness for C1 at a concrete record and version: the symbol with
range `((3, 0), (3, 12))` queried at `(3, 14)` is classified
Deprecated. -/
theorem check_version_deprecated_iff_witness :
    (check_version ⟨"gtk_widget_show_all", (3, 0), (3, 12)⟩ 3 14 = 1 ↔
      ((3 : Int) < 3 ∨ (12 : Int) < 14)) ∧
    (¬ ((3 : Int) < 3 ∨ (12 : Int) < 14) →
      check_version ⟨"gtk_widget_show_all", (3, 0), (3, 12)⟩ 3 14 = 0) :=
  check_version_deprecated_iff ⟨"gtk_widget_show_all", (3, 0), (3, 12)⟩ 3 14
    (by decide)

theorem known_minors_bounds : ∀ x ∈ known_minors, (0 : Int) ≤ x ∧ x ≤ 12 := by
  decide

theorem check_version_eq_zero (s : GtkSymbol) (tmaj tmin : Int)
    (h1 : ¬ versionLt (tmaj, tmin) s.minimum_gtk_version)
    (h2 : ¬ (s.maximum_gtk_version.1 < tmaj ∨ s.maximum_gtk_version.2 < tmin)) :
    check_version s tmaj tmin = 0 := by
  unfold versionLt at h1
  unfold check_version
  rw [if_neg (by omega), if_neg (by omega)]

/-- C3: a symbol occurring in at least one availability listing ends up,
after the full construction, with exactly one record whose minimum
version is the earliest version of the ascending known series whose
availability listing contains it; later availability listings never
change it and no duplicate record exists. -/
theorem get_symbols_min_version (a d : Int → List String) (s : String)
    (m : Int) (hm : m ∈ known_minors) (hs : s ∈ a m) :
    (∃ r m₀, dictFind (get_symbols a d) s = some r ∧
      m₀ ∈ known_minors ∧ s ∈ a m₀ ∧
      (∀ m' ∈ known_minors, s ∈ a m' → m₀ ≤ m') ∧
      r.minimum_gtk_version = (3, m₀)) ∧
    (dictKeys (get_symbols a d)).Nodup := by
  obtain ⟨m₀, hf⟩ := firstHit_isSome a s known_minors m hm hs
  obtain ⟨hmem, hhit⟩ := firstHit_mem_hit a s known_minors m₀ hf
  have hmin := firstHit_min a s known_minors (by decide) m₀ hf
  have hl := get_symbols_lookup a d s
  rw [hf] at hl
  refine ⟨?_, get_symbols_keys_nodup a d⟩
  cases hld : lastHit d s known_minors.reverse with
  | none =>
    rw [hld] at hl
    exact ⟨_, m₀, hl, hmem, hhit, hmin, rfl⟩
  | some md =>
    rw [hld] at hl
    exact ⟨_, m₀, hl, hmem, hhit, hmin, rfl⟩

/-- Availability listings used by the C3 witness. -/
def c3wa : Int → List String := fun m =>
  if m = 2 ∨ m = 6 then ["gtk_widget_w"] else []

/-- Deprecation listings used by the C3 witness. -/
def c3wd : Int → List String := fun _ => []

/-- Witness for C3: a symbol available at 3.2 and 3.6 gets minimum
version 3.2 and a single record. -/
theorem get_symbols_min_version_witness :
    (∃ r m₀, dictFind (get_symbols c3wa c3wd) "gtk_widget_w" = some r ∧
      m₀ ∈ known_minors ∧ "gtk_widget_w" ∈ c3wa m₀ ∧
      (∀ m' ∈ known_minors, "gtk_widget_w" ∈ c3wa m' → m₀ ≤ m') ∧
      r.minimum_gtk_version = (3, m₀)) ∧
    (dictKeys (get_symbols c3wa c3wd)).Nodup :=
  get_symbols_min_version c3wa c3wd "gtk_widget_w" 6 (by decide) (by decide)

/-- C4: a symbol with a record from the introduction pass that occurs in
at least one deprecation listing ends, after the backward deprecation
pass, with maximum version equal to the oldest version of the known
series whose deprecation listing names it. -/
theorem get_symbols_max_version (a d : Int → List String) (s : String)
    (mi m : Int) (hmi : mi ∈ known_minors) (hsi : s ∈ a mi)
    (hm : m ∈ known_minors) (hs : s ∈ d m) :
    ∃ r m₀, dictFind (get_symbols a d) s = some r ∧
      m₀ ∈ known_minors ∧ s ∈ d m₀ ∧
      (∀ m' ∈ known_minors, s ∈ d m' → m₀ ≤ m') ∧
      r.maximum_gtk_version = (3, m₀) := by
  obtain ⟨ma, hf⟩ := firstHit_isSome a s known_minors mi hmi hsi
  obtain ⟨md, hld⟩ :=
    lastHit_isSome d s known_minors.reverse m (List.mem_reverse.mpr hm) hs
  obtain ⟨hmemr, hhit⟩ := lastHit_mem_hit d s known_minors.reverse md hld
  have hmin := lastHit_min d s known_minors.reverse (by decide) md hld
  have hl := get_symbols_lookup a d s
  rw [hf, hld] at hl
  exact ⟨_, md, hl, List.mem_reverse.mp hmemr, hhit,
    fun m' hm' hs' => hmin m' (List.mem_reverse.mpr hm') hs', rfl⟩

/-- Availability listings used by the C4 witness. -/
def c4wa : Int → List String := fun m => if m = 2 then ["gtk_widget_x"] else []

/-- Deprecation listings used by the C4 witness. -/
def c4wd : Int → List String := fun m =>
  if m = 6 ∨ m = 10 then ["gtk_widget_x"] else []

/-- Witness for C4: introduced at 3.2 and deprecated at 3.6 and 3.10,
the final maximum version is 3.6, the oldest deprecating version. -/
theorem get_symbols_max_version_witness :
    ∃ r m₀, dictFind (get_symbols c4wa c4wd) "gtk_widget_x" = some r ∧
      m₀ ∈ known_minors ∧ "gtk_widget_x" ∈ c4wd m₀ ∧
      (∀ m' ∈ known_minors, "gtk_widget_x" ∈ c4wd m' → m₀ ≤ m') ∧
      r.maximum_gtk_version = (3, m₀) :=
  get_symbols_max_version c4wa c4wd "gtk_widget_x" 2 6
    (by decide) (by decide) (by decide) (by decide)

/-- C5: a symbol occurring in some deprecation listing and in no
availability listing receives exactly one record, with minimum version
the base version 3.0 of the known series and maximum version the
oldest version whose deprecation listing names it. -/
theorem get_symbols_deprecated_only (a d : Int → List String) (s : String)
    (m : Int) (hm : m ∈ known_minors) (hs : s ∈ d m)
    (hna : ∀ m' ∈ known_minors, s ∉ a m') :
    (∃ m₀, m₀ ∈ known_minors ∧ s ∈ d m₀ ∧
      (∀ m' ∈ known_minors, s ∈ d m' → m₀ ≤ m') ∧
      dictFind (get_symbols a d) s = some ⟨s, (3, 0), (3, m₀)⟩) ∧
    (dictKeys (get_symbols a d)).Nodup := by
  have hf : firstHit a s known_minors = none :=
    (firstHit_none_iff a s known_minors).mpr hna
  obtain ⟨md, hld⟩ :=
    lastHit_isSome d s known_minors.reverse m (List.mem_reverse.mpr hm) hs
  obtain ⟨hmemr, hhit⟩ := lastHit_mem_hit d s known_minors.reverse md hld
  have hmin := lastHit_min d s known_minors.reverse (by decide) md hld
  have hl := get_symbols_lookup a d s
  rw [hf, hld] at hl
  exact ⟨⟨md, List.mem_reverse.mp hmemr, hhit,
    fun m' hm' hs' => hmin m' (List.mem_reverse.mpr hm') hs', hl⟩,
    get_symbols_keys_nodup a d⟩

/-- Availability listings used by the C5 witness. -/
def c5wa : Int → List String := fun _ => []

/-- Deprecation listings used by the C5 witness. -/
def c5wd : Int → List String := fun m =>
  if m = 4 ∨ m = 10 then ["gtk_dep_only"] else []

/-- Witness for C5: deprecated at 3.4 and 3.10, never available, the
record is `((3, 0), (3, 4))`. -/
theorem get_symbols_deprecated_only_witness :
    (∃ m₀, m₀ ∈ known_minors ∧ "gtk_dep_only" ∈ c5wd m₀ ∧
      (∀ m' ∈ known_minors, "gtk_dep_only" ∈ c5wd m' → m₀ ≤ m') ∧
      dictFind (get_symbols c5wa c5wd) "gtk_dep_only" =
        some ⟨"gtk_dep_only", (3, 0), (3, m₀)⟩) ∧
    (dictKeys (get_symbols c5wa c5wd)).Nodup :=
  get_symbols_deprecated_only c5wa c5wd "gtk_dep_only" 4
    (by decide) (by decide) (by decide)

/-- C6: a symbol absent from every availability and every deprecation
listing is classified `Unknown` for every target version, as a normal
result: the compliance check's missing-key branch returns `false`
totally, raising nothing out of the core. -/
theorem check_unknown_symbol (a d : Int → List String) (s : String)
    (tmaj tmin : Int)
    (hna : ∀ m ∈ known_minors, s ∉ a m)
    (hnd : ∀ m ∈ known_minors, s ∉ d m) :
    classify_symbol (get_symbols a d) s tmaj tmin = Classification.Unknown ∧
    (∀ hide : Bool,
      check_available_symbol (get_symbols a d) hide s tmaj tmin =
        (false, if hide then [] else [Report.notFound s])) := by
  have hf : firstHit a s known_minors = none :=
    (firstHit_none_iff a s known_minors).mpr hna
  have hld : lastHit d s known_minors.reverse = none :=
    (lastHit_none_iff d s known_minors.reverse).mpr
      (fun m hm => hnd m (List.mem_reverse.mp hm))
  have hl := get_symbols_lookup a d s
  rw [hf, hld] at hl
  constructor
  · simp only [classify_symbol]
    rw [hl]
  · intro hide
    simp only [check_available_symbol]
    rw [hl]
    cases hide <;> rfl

/-- Availability listings used by the C6 witness. -/
def c6wa : Int → List String := fun m => if m = 0 then ["gtk_known"] else []

/-- Deprecation listings used by the C6 witness. -/
def c6wd : Int → List String := fun _ => []

/-- Witness for C6: a name in no listing is Unknown and the check
returns `false` for both values of the hide flag. -/
theorem check_unknown_symbol_witness :
    classify_symbol (get_symbols c6wa c6wd) "gtk_missing" 3 12 =
      Classification.Unknown ∧
    (∀ hide : Bool,
      check_available_symbol (get_symbols c6wa c6wd) hide "gtk_missing" 3 12 =
        (false, if hide then [] else [Report.notFound "gtk_missing"])) :=
  check_unknown_symbol c6wa c6wd "gtk_missing" 3 12 (by decide) (by decide)

/-- C7: a symbol available at the base version 3.0 and never deprecated
is classified Valid at every target version of the known series. -/
theorem base_symbol_always_valid (a d : Int → List String) (s : String)
    (hs : s ∈ a 0) (hnd : ∀ m ∈ known_minors, s ∉ d m)
    (tm : Int) (htm : tm ∈ known_minors) :
    classify_symbol (get_symbols a d) s 3 tm = Classification.Valid := by
  have h0 : (0 : Int) ∈ known_minors := by decide
  obtain ⟨m₀, hf⟩ := firstHit_isSome a s known_minors 0 h0 hs
  obtain ⟨hmem, hhit⟩ := firstHit_mem_hit a s known_minors m₀ hf
  have hle := firstHit_min a s known_minors (by decide) m₀ hf 0 h0 hs
  have hge : (0 : Int) ≤ m₀ := (known_minors_bounds m₀ hmem).1
  have hm0 : m₀ = 0 := le_antisymm hle hge
  subst hm0
  have hld : lastHit d s known_minors.reverse = none :=
    (lastHit_none_iff d s known_minors.reverse).mpr
      (fun m hm => hnd m (List.mem_reverse.mp hm))
  have hl := get_symbols_lookup a d s
  rw [hf, hld] at hl
  have hl' : dictFind (get_symbols a d) s = some ⟨s, (3, 0), (3, 12)⟩ := hl
  have htb := known_minors_bounds tm htm
  have hcv : check_version ⟨s, (3, 0), (3, 12)⟩ 3 tm = 0 := by
    apply check_version_eq_zero
    · show ¬ versionLt (3, tm) (3, 0)
      unfold versionLt
      simp
      omega
    · show ¬ ((3 : Int) < 3 ∨ (12 : Int) < tm)
      omega
  simp [classify_symbol, hl', hcv]

/-- Availability listings used by the C7 witness. -/
def c7wa : Int → List String := fun m => if m = 0 then ["gtk_base_sym"] else []

/-- Deprecation listings used by the C7 witness. -/
def c7wd : Int → List String := fun _ => []

/-- Witness for C7: the base symbol is Valid at target 3.6. -/
theorem base_symbol_always_valid_witness :
    classify_symbol (get_symbols c7wa c7wd) "gtk_base_sym" 3 6 =
      Classification.Valid :=
  base_symbol_always_valid c7wa c7wd "gtk_base_sym" (by decide) (by decide)
    6 (by decide)

/-- C8: the construction is deterministic: running it on identical
per-version listings (any two functions agreeing on the whole known
series) produces identical symbol records, with no external
randomness. -/
theorem get_symbols_deterministic (a d a' d' : Int → List String)
    (ha : ∀ m ∈ known_minors, a m = a' m)
    (hd : ∀ m ∈ known_minors, d m = d' m) :
    get_symbols a d = get_symbols a' d' := by
  unfold get_symbols
  rw [foldAvail_congr a a' known_minors [] ha]
  exact foldDep_congr d d' known_minors.reverse _
    (fun m hm => hd m (List.mem_reverse.mp hm))

/-- First copy of the availability listings for the C8 witness. -/
def c8wa : Int → List String := fun m => if m = 2 then ["gtk_det"] else []

/-- Second, syntactically different copy of the same availability
listings for the C8 witness. -/
def c8wa' : Int → List String := fun m =>
  if 2 ≤ m ∧ m ≤ 2 then ["gtk_det"] else []

/-- First copy of the deprecation listings for the C8 witness. -/
def c8wd : Int → List String := fun m => if m = 8 then ["gtk_det"] else []

/-- Second, syntactically different copy of the same deprecation
listings for the C8 witness. -/
def c8wd' : Int → List String := fun m =>
  if 8 ≤ m ∧ m ≤ 8 then ["gtk_det"] else []

/-- Witness for C8: two presentations of identical listings build the
same database. -/
theorem get_symbols_deterministic_witness :
    get_symbols c8wa c8wd = get_symbols c8wa' c8wd' :=
  get_symbols_deterministic c8wa c8wd c8wa' c8wd' (by decide) (by decide)

/-- Availability listings of the C9 counterexample: the symbol is first
documented only at 3.8. -/
def c9avail : Int → List String := fun m => if m = 8 then ["gtk_late"] else []

/-- Deprecation listings of the C9 counterexample: the symbol is
deprecated only at 3.0, before its introduction. -/
def c9dep : Int → List String := fun m => if m = 0 then ["gtk_late"] else []

/-- C9 counterexample: with a symbol available only at 3.8 but
deprecated at 3.0, the finalized database holds a record whose minimum
version `(3, 8)` exceeds its maximum version `(3, 0)`, so the claimed
invariant fails for this input. -/
theorem get_symbols_min_le_max_counterexample :
    ¬ (∀ p ∈ get_symbols c9avail c9dep,
        versionLe p.2.minimum_gtk_version p.2.maximum_gtk_version) := by
  decide

/-- C9 amended: every record of the finalized database satisfies
min_version ≤ max_version lexicographically, provided the listings are
consistent: every symbol named by both kinds of listing has some
availability version at or below each of its deprecation versions. -/
theorem get_symbols_min_le_max (a d : Int → List String)
    (hc : ∀ s ma md, ma ∈ known_minors → md ∈ known_minors →
      s ∈ a ma → s ∈ d md →
      ∃ ma', ma' ∈ known_minors ∧ s ∈ a ma' ∧ ma' ≤ md) :
    ∀ p ∈ get_symbols a d,
      versionLe p.2.minimum_gtk_version p.2.maximum_gtk_version := by
  intro p hp
  obtain ⟨k, r⟩ := p
  have hfind : dictFind (get_symbols a d) k = some r :=
    dictFind_of_mem_nodup _ _ _ (get_symbols_keys_nodup a d) hp
  have hl := get_symbols_lookup a d k
  rw [hfind] at hl
  cases hf : firstHit a k known_minors with
  | none =>
    cases hld : lastHit d k known_minors.reverse with
    | none =>
      rw [hf, hld] at hl
      cases hl
    | some md =>
      rw [hf, hld] at hl
      have hr : r = ⟨k, (gtk_major_version, 0), (3, md)⟩ := by
        simpa using hl
      subst hr
      obtain ⟨hmemr, _⟩ := lastHit_mem_hit d k known_minors.reverse md hld
      have hmd := known_minors_bounds md (List.mem_reverse.mp hmemr)
      show versionLe (gtk_major_version, 0) (3, md)
      unfold versionLe gtk_major_version
      simp
      omega
  | some ma =>
    obtain ⟨hmema, hhita⟩ := firstHit_mem_hit a k known_minors ma hf
    have hma := known_minors_bounds ma hmema
    cases hld : lastHit d k known_minors.reverse with
    | none =>
      rw [hf, hld] at hl
      have hr : r = ⟨k, (3, ma), (3, 12)⟩ := by
        simpa using hl
      subst hr
      show versionLe (3, ma) (3, 12)
      unfold versionLe
      simp
      omega
    | some md =>
      rw [hf, hld] at hl
      have hr : r = ⟨k, (3, ma), (3, md)⟩ := by
        simpa using hl
      subst hr
      obtain ⟨hmemr, hhitd⟩ := lastHit_mem_hit d k known_minors.reverse md hld
      have hmemd : md ∈ known_minors := List.mem_reverse.mp hmemr
      obtain ⟨ma', hmema', hhita', hle'⟩ :=
        hc k ma md hmema hmemd hhita hhitd
      have hminle := firstHit_min a k known_minors (by decide) ma hf ma' hmema' hhita'
      show versionLe (3, ma) (3, md)
      unfold versionLe
      simp
      omega

/-- Availability listings used by the C9 witness. -/
def c9wa : Int → List String := fun m => if m = 0 then ["gtk_ok"] else []

/-- Deprecation listings used by the C9 witness. -/
def c9wd : Int → List String := fun m => if m = 4 then ["gtk_ok"] else []

/-- Witness for the amended C9: a symbol available at 3.0 and deprecated
at 3.4 produces the record `((3, 0), (3, 4))` in the database, and the
amended theorem yields the invariant for it. -/
theorem get_symbols_min_le_max_witness :
    versionLe
      (("gtk_ok", (⟨"gtk_ok", (3, 0), (3, 4)⟩ : GtkSymbol)) :
        String × GtkSymbol).2.minimum_gtk_version
      (("gtk_ok", (⟨"gtk_ok", (3, 0), (3, 4)⟩ : GtkSymbol)) :
        String × GtkSymbol).2.maximum_gtk_version :=
  get_symbols_min_le_max c9wa c9wd (by
    intro s ma md hma hmd hsa hsd
    have hma0 : ma = 0 := by
      by_contra hne
      simp [c9wa, hne] at hsa
    subst hma0
    exact ⟨0, hma, hsa, (known_minors_bounds md hmd).1⟩)
    ("gtk_ok", ⟨"gtk_ok", (3, 0), (3, 4)⟩) (by decide)

/-- C10: `check_available_symbol` returns `true` exactly when the
symbol is present and its range classifies the target as Valid; it
returns `false` for TooNew, Deprecated and absent symbols alike; the
hide flag changes only the printed not-found report, never the boolean
result. -/
theorem check_available_symbol_result (syms : SymbolDict) (hide : Bool)
    (s : String) (tmaj tmin : Int) :
    ((check_available_symbol syms hide s tmaj tmin).1 = true ↔
      (∃ r, dictFind syms s = some r ∧ check_version r tmaj tmin = 0)) ∧
    ((check_available_symbol syms true s tmaj tmin).1 =
      (check_available_symbol syms false s tmaj tmin).1) ∧
    (dictFind syms s = none →
      (check_available_symbol syms true s tmaj tmin).2 = [] ∧
      (check_available_symbol syms false s tmaj tmin).2 =
        [Report.notFound s]) := by
  cases hfind : dictFind syms s with
  | none =>
    cases hide <;> simp [check_available_symbol, hfind]
  | some r =>
    rcases check_version_cases r tmaj tmin with hc | hc | hc <;>
      simp [check_available_symbol, hfind, hc]

/-- Database used by the C10 witness. -/
def c10db : SymbolDict :=
  [("gtk_widget_show", ⟨"gtk_widget_show", (3, 0), (3, 12)⟩)]

/-- Witness for C10 at a concrete database, absent symbol and target
version. -/
theorem check_available_symbol_result_witness :
    ((check_available_symbol c10db true "gtk_other" 3 12).1 = true ↔
      (∃ r, dictFind c10db "gtk_other" = some r ∧ check_version r 3 12 = 0)) ∧
    ((check_available_symbol c10db true "gtk_other" 3 12).1 =
      (check_available_symbol c10db false "gtk_other" 3 12).1) ∧
    (dictFind c10db "gtk_other" = none →
      (check_available_symbol c10db true "gtk_other" 3 12).2 = [] ∧
      (check_available_symbol c10db false "gtk_other" 3 12).2 =
        [Report.notFound "gtk_other"]) :=
  check_available_symbol_result c10db true "gtk_other" 3 12
